import Mathlib

/-!
Verification of the chained hash table in src/src/HashTable.cpp.

The table stores Bid records in a fixed-length vector of head nodes, one
per bucket.  A head node whose key field equals UINT_MAX marks an
unoccupied bucket; colliding records hang off the head in a singly linked
overflow chain.  We embed the data model and the four public operations
(Insert, Remove, Search, PrintAll) as pure Lean functions and prove the
specified properties about them.

Modelling notes:
* Machine unsigned ints become Nat; the reserved marker UINT_MAX is the
  literal 2^32 - 1.  The C++ constructor takes an unsigned int size, so a
  table never has more than UINT_MAX buckets; theorems carry that bound
  where it matters.
* The amount field (a C++ double) is only ever stored and copied by the
  table, never computed with, so we model it as Int; any type with
  decidable equality would do.
* std::hash on strings is implementation defined; operations take the raw
  string hash as an explicit function parameter hf, and the bucket index
  is hf key % tableSize, exactly as in the source.
* A bucket is the head node together with the list of overflow nodes; the
  null next pointer of the last node becomes the end of the list.
-/

/-- Marker value for an unoccupied head slot (C++ UINT_MAX). -/
def UINT_MAX : Nat := 4294967295

/-- Default table capacity (C++ DEFAULT_SIZE = 179). -/
def DEFAULT_SIZE : Nat := 179

/-- A bid record: identifier plus payload fields (struct Bid). -/
structure Bid where
  bidId : String
  title : String
  fund : String
  amount : Int
  deriving DecidableEq, Repr

/-- The default-constructed Bid: empty strings, amount 0.  Used both as the
empty-slot value and as the not-found sentinel returned by Search. -/
def emptyBid : Bid := ⟨"", "", "", 0⟩

/-- One stored node: a bid plus the bucket-index bookkeeping field
(struct HashTable::Node, with the next pointer factored into Bucket). -/
structure Node where
  bid : Bid
  key : Nat
  deriving DecidableEq, Repr

/-- The default-constructed node: empty bid, key UINT_MAX, no successor. -/
def emptyNode : Node := ⟨emptyBid, UINT_MAX⟩

/-- One bucket: the in-place head node and its overflow chain (the list of
nodes reached by following next pointers from the head). -/
structure Bucket where
  head : Node
  chain : List Node
  deriving DecidableEq, Repr

/-- A freshly constructed bucket: unoccupied head, no chain. -/
def emptyBucket : Bucket := ⟨emptyNode, []⟩

/-- The hash table: the vector of bucket heads.  tableSize always equals
nodes.size() in the source, so we take the list length as the size. -/
structure HashTable where
  nodes : List Bucket
  deriving DecidableEq, Repr

/-- Constructor: resize the node vector to the requested size, with zero
mapping to the default capacity (both C++ constructors). -/
def HashTable.create (size : Nat) : HashTable :=
  ⟨List.replicate (if size = 0 then DEFAULT_SIZE else size) emptyBucket⟩

/-- Bucket lookup by index; total via a default, only ever used with the
index hf key % length, which is in bounds for every nonempty table. -/
def HashTable.bucketAt (t : HashTable) (i : Nat) : Bucket :=
  t.nodes.getD i emptyBucket

/-- The insert walk over the chain, translated from the loop in
HashTable::Insert: while the current node has a successor, compare its
bidId and overwrite the bid in place on a match, otherwise advance; at the
last node run the final duplicate check, and append a fresh node with the
given key when no node matched.  Returns the updated current node and the
updated remainder of the chain. -/
def chainWalk (bid : Bid) (k : Nat) : Node → List Node → Node × List Node
  | curr, [] =>
    if curr.bid.bidId = bid.bidId then (⟨bid, curr.key⟩, [])
    else (curr, [⟨bid, k⟩])
  | curr, n :: rest =>
    if curr.bid.bidId = bid.bidId then (⟨bid, curr.key⟩, n :: rest)
    else
      let p := chainWalk bid k n rest
      (curr, p.1 :: p.2)

/-- Insert into one bucket (HashTable::Insert, after the bucket index is
computed): an unoccupied head takes the bid directly, with its key set to
the bucket index and its next pointer nulled; otherwise the chain walk
updates in place or appends. -/
def Bucket.insertB (b : Bucket) (bid : Bid) (k : Nat) : Bucket :=
  if b.head.key = UINT_MAX then ⟨⟨bid, k⟩, []⟩
  else ⟨(chainWalk bid k b.head b.chain).1, (chainWalk bid k b.head b.chain).2⟩

/-- The remove walk over the overflow chain (the prev/curr loop in
HashTable::Remove): unlink the first node whose bidId matches. -/
def removeChain (bidId : String) : List Node → List Node
  | [] => []
  | n :: rest => if n.bid.bidId = bidId then rest else n :: removeChain bidId rest

/-- Remove from one bucket (HashTable::Remove, after the bucket index is
computed): empty bucket is a no-op; a matching occupied head is cleared
when it has no chain, or replaced by the promoted first chain node;
otherwise the chain walk unlinks the first match. -/
def Bucket.removeB (b : Bucket) (bidId : String) : Bucket :=
  if b.head.key = UINT_MAX ∧ b.chain = [] then b
  else if b.head.key ≠ UINT_MAX ∧ b.head.bid.bidId = bidId then
    match b.chain with
    | [] => emptyBucket
    | n :: rest => ⟨⟨n.bid, n.key⟩, rest⟩
  else ⟨b.head, removeChain bidId b.chain⟩

/-- The search walk over the overflow chain (the loop in
HashTable::Search): return the first matching bid, or the sentinel. -/
def searchChain (bidId : String) : List Node → Bid
  | [] => emptyBid
  | n :: rest => if n.bid.bidId = bidId then n.bid else searchChain bidId rest

/-- Search one bucket (HashTable::Search, after the bucket index is
computed): check the occupied head first, then walk the chain. -/
def Bucket.searchB (b : Bucket) (bidId : String) : Bid :=
  if b.head.key ≠ UINT_MAX ∧ b.head.bid.bidId = bidId then b.head.bid
  else searchChain bidId b.chain

/-- The nodes printed for one bucket by HashTable::PrintAll: the head and
every chain node, keeping exactly those whose key is not UINT_MAX. -/
def Bucket.printNodes (b : Bucket) : List Node :=
  (b.head :: b.chain).filter fun n => n.key ≠ UINT_MAX

/-- HashTable::Insert: hash the bidId to a bucket index and insert there. -/
def HashTable.Insert (t : HashTable) (hf : String → Nat) (bid : Bid) : HashTable :=
  let i := hf bid.bidId % t.nodes.length
  ⟨t.nodes.set i ((t.bucketAt i).insertB bid i)⟩

/-- HashTable::Remove: hash the bidId to a bucket index and remove there. -/
def HashTable.Remove (t : HashTable) (hf : String → Nat) (bidId : String) : HashTable :=
  let i := hf bidId % t.nodes.length
  ⟨t.nodes.set i ((t.bucketAt i).removeB bidId)⟩

/-- HashTable::Search: hash the bidId to a bucket index and search there. -/
def HashTable.Search (t : HashTable) (hf : String → Nat) (bidId : String) : Bid :=
  let i := hf bidId % t.nodes.length
  (t.bucketAt i).searchB bidId

/-- HashTable::PrintAll, modelled as the sequence of nodes printed:
buckets in ascending index order, and within a bucket the head first and
then the chain nodes in list order. -/
def HashTable.PrintAll (t : HashTable) : List Node :=
  t.nodes.flatMap Bucket.printNodes

/-- The occupied nodes of a bucket: the head when occupied, then the
chain.  This is the specification-side view of the bucket contents used to
state invariants; under the reachable-state invariants it coincides with
printNodes. -/
def Bucket.occupants (b : Bucket) : List Node :=
  (if b.head.key ≠ UINT_MAX then [b.head] else []) ++ b.chain

/-- All occupied nodes of the table, in enumeration order. -/
def HashTable.occAll (t : HashTable) : List Node :=
  t.nodes.flatMap Bucket.occupants

/-- The identifiers currently stored in the table. -/
def HashTable.ids (t : HashTable) : List String :=
  t.occAll.map fun n => n.bid.bidId

/-- An identifier is present in the table when some occupied node holds it. -/
def HashTable.containsId (t : HashTable) (s : String) : Prop :=
  s ∈ t.ids

instance (t : HashTable) (s : String) : Decidable (t.containsId s) := by
  unfold HashTable.containsId
  infer_instance

/-- Table states reachable by the public API: some constructor call
followed by any sequence of Insert and Remove operations.  The constructor
argument is a C++ unsigned int, hence at most UINT_MAX. -/
inductive Reachable (hf : String → Nat) : HashTable → Prop where
  | init (size : Nat) (hle : size ≤ UINT_MAX) : Reachable hf (HashTable.create size)
  | insert {t : HashTable} (bid : Bid) : Reachable hf t → Reachable hf (t.Insert hf bid)
  | remove {t : HashTable} (bidId : String) : Reachable hf t → Reachable hf (t.Remove hf bidId)

/-- The invariants maintained by every reachable table state. -/
structure WF (hf : String → Nat) (t : HashTable) : Prop where
  pos : 0 < t.nodes.length
  size_le : t.nodes.length ≤ UINT_MAX
  head_key : ∀ i < t.nodes.length,
    (t.bucketAt i).head.key ≠ UINT_MAX → (t.bucketAt i).head.key = i
  empty_chain : ∀ i < t.nodes.length,
    (t.bucketAt i).head.key = UINT_MAX → (t.bucketAt i).chain = []
  chain_key : ∀ i < t.nodes.length, ∀ n ∈ (t.bucketAt i).chain, n.key = i
  home : ∀ i < t.nodes.length, ∀ n ∈ (t.bucketAt i).occupants,
    hf n.bid.bidId % t.nodes.length = i
  bucket_nodup : ∀ i < t.nodes.length,
    ((t.bucketAt i).occupants.map fun n => n.bid.bidId).Nodup

/-! ### Chain-level lemmas -/

/-- The identifiers held by a list of nodes, in order. -/
def nodeIds (l : List Node) : List String := l.map fun n => n.bid.bidId

/-- The net effect of the insert walk on a nonempty node list: overwrite
the bid of the first node whose bidId matches, keeping its key, or append
a fresh node with the given key when none matches.  The walk in the source
checks every node exactly once, in order, so it realises this function. -/
def updateChain (bid : Bid) (k : Nat) : List Node → List Node
  | [] => [⟨bid, k⟩]
  | n :: rest =>
    if n.bid.bidId = bid.bidId then ⟨bid, n.key⟩ :: rest
    else n :: updateChain bid k rest

/-- A degenerate string hash for concrete test states: every key lands in
bucket 0, the adversarial collision setting of the spec scenario. -/
def hf0 : String → Nat := fun _ => 0

/-- Concrete record with identifier A, from the spec collision scenario. -/
def bidA : Bid := ⟨"A", "titleA", "fundA", 10⟩

/-- Concrete record with identifier F, from the spec collision scenario. -/
def bidF : Bid := ⟨"F", "titleF", "fundF", 20⟩

/-- A five-bucket table, as in the concrete collision scenario. -/
def table5 : HashTable := HashTable.create 5

/-- table5 after inserting bidA and then bidF; under hf0 both land in
bucket 0, giving a chain of length two there. -/
def tableAF : HashTable := (table5.Insert hf0 bidA).Insert hf0 bidF

/-- A second record with identifier A but a different payload. -/
def bidA2 : Bid := ⟨"A", "titleA2", "fundA2", 30⟩

/-- A record whose identifier is the empty string. -/
def bidEmpty : Bid := ⟨"", "titleE", "fundE", 7⟩

theorem chainWalk_cons (bid : Bid) (k : Nat) (curr : Node) (c : List Node) :
    (chainWalk bid k curr c).1 :: (chainWalk bid k curr c).2 =
      updateChain bid k (curr :: c) := by
  induction c generalizing curr with
  | nil => by_cases h : curr.bid.bidId = bid.bidId <;> simp [chainWalk, updateChain, h]
  | cons n rest ih =>
    by_cases h : curr.bid.bidId = bid.bidId
    · simp [chainWalk, updateChain, h]
    · simp [chainWalk, updateChain, h, ih n]

theorem updateChain_key (bid : Bid) (k : Nat) (l : List Node) :
    ∀ m ∈ updateChain bid k l, m.key = k ∨ ∃ n ∈ l, m.key = n.key := by
  induction l with
  | nil => simp [updateChain]
  | cons n rest ih =>
    intro m hm
    by_cases h : n.bid.bidId = bid.bidId
    · simp [updateChain, h] at hm
      rcases hm with rfl | hm
      · exact Or.inr ⟨n, by simp⟩
      · exact Or.inr ⟨m, by simp [hm]⟩
    · simp [updateChain, h] at hm
      rcases hm with rfl | hm
      · exact Or.inr ⟨m, by simp⟩
      · rcases ih m hm with hk | ⟨n', hn', hk⟩
        · exact Or.inl hk
        · exact Or.inr ⟨n', by simp [hn'], hk⟩


theorem nodeIds_nil : nodeIds [] = [] := rfl

theorem nodeIds_cons (n : Node) (l : List Node) :
    nodeIds (n :: l) = n.bid.bidId :: nodeIds l := rfl

theorem nodeIds_append (l m : List Node) :
    nodeIds (l ++ m) = nodeIds l ++ nodeIds m := by
  simp [nodeIds]

theorem mem_nodeIds_updateChain (bid : Bid) (k : Nat) (l : List Node) :
    ∀ s ∈ nodeIds (updateChain bid k l), s ∈ nodeIds l ∨ s = bid.bidId := by
  induction l with
  | nil =>
    intro s hs
    simp [updateChain, nodeIds_cons, nodeIds_nil] at hs
    exact Or.inr hs
  | cons n rest ih =>
    intro s hs
    by_cases h : n.bid.bidId = bid.bidId
    · simp only [updateChain, if_pos h, nodeIds_cons, List.mem_cons] at hs
      rcases hs with rfl | hs
      · exact Or.inr rfl
      · exact Or.inl (by simp [nodeIds_cons, hs])
    · simp only [updateChain, if_neg h, nodeIds_cons, List.mem_cons] at hs
      rcases hs with rfl | hs
      · exact Or.inl (by simp [nodeIds_cons])
      · rcases ih s hs with h1 | h1
        · exact Or.inl (by simp [nodeIds_cons, h1])
        · exact Or.inr h1

theorem self_mem_nodeIds_updateChain (bid : Bid) (k : Nat) (l : List Node) :
    bid.bidId ∈ nodeIds (updateChain bid k l) := by
  induction l with
  | nil => simp [updateChain, nodeIds_cons, nodeIds_nil]
  | cons n rest ih =>
    by_cases h : n.bid.bidId = bid.bidId
    · simp [updateChain, if_pos h, nodeIds_cons]
    · simp only [updateChain, if_neg h, nodeIds_cons, List.mem_cons]
      exact Or.inr ih

theorem nodup_nodeIds_updateChain (bid : Bid) (k : Nat) (l : List Node)
    (hl : (nodeIds l).Nodup) : (nodeIds (updateChain bid k l)).Nodup := by
  induction l with
  | nil => simp [updateChain, nodeIds_cons, nodeIds_nil]
  | cons n rest ih =>
    rw [nodeIds_cons, List.nodup_cons] at hl
    by_cases h : n.bid.bidId = bid.bidId
    · simp only [updateChain, if_pos h, nodeIds_cons, List.nodup_cons]
      exact ⟨by rw [← h]; exact hl.1, hl.2⟩
    · simp only [updateChain, if_neg h, nodeIds_cons, List.nodup_cons]
      refine ⟨?_, ih hl.2⟩
      intro hmem
      rcases mem_nodeIds_updateChain bid k rest n.bid.bidId hmem with h1 | h1
      · exact hl.1 h1
      · exact h h1

theorem length_updateChain_of_mem (bid : Bid) (k : Nat) (l : List Node)
    (hmem : bid.bidId ∈ nodeIds l) : (updateChain bid k l).length = l.length := by
  induction l with
  | nil => simp [nodeIds_nil] at hmem
  | cons n rest ih =>
    by_cases h : n.bid.bidId = bid.bidId
    · simp [updateChain, if_pos h]
    · rw [nodeIds_cons, List.mem_cons] at hmem
      rcases hmem with h1 | h1
      · exact absurd h1.symm h
      · simp [updateChain, if_neg h, ih h1]

theorem searchChain_updateChain (bid : Bid) (k : Nat) (l : List Node) :
    searchChain bid.bidId (updateChain bid k l) = bid := by
  induction l with
  | nil => simp [updateChain, searchChain]
  | cons n rest ih =>
    by_cases h : n.bid.bidId = bid.bidId
    · simp [updateChain, if_pos h, searchChain]
    · simp [updateChain, if_neg h, searchChain, h, ih]

theorem searchChain_of_not_mem (s : String) (l : List Node)
    (h : s ∉ nodeIds l) : searchChain s l = emptyBid := by
  induction l with
  | nil => simp [searchChain]
  | cons n rest ih =>
    rw [nodeIds_cons, List.mem_cons] at h
    push_neg at h
    rw [searchChain, if_neg (fun hc => h.1 hc.symm)]
    exact ih h.2

theorem searchChain_mem (s : String) (l : List Node)
    (h : s ∈ nodeIds l) : (searchChain s l).bidId = s := by
  induction l with
  | nil => simp [nodeIds_nil] at h
  | cons n rest ih =>
    by_cases hn : n.bid.bidId = s
    · simp [searchChain, hn]
    · rw [nodeIds_cons, List.mem_cons] at h
      rcases h with h1 | h1
      · exact absurd h1.symm hn
      · rw [searchChain, if_neg hn]
        exact ih h1

theorem removeChain_sublist (s : String) (l : List Node) :
    (removeChain s l).Sublist l := by
  induction l with
  | nil => simp [removeChain]
  | cons n rest ih =>
    by_cases h : n.bid.bidId = s
    · rw [removeChain, if_pos h]
      exact (List.sublist_cons_self n rest)
    · rw [removeChain, if_neg h]
      exact ih.cons₂ n

theorem removeChain_of_not_mem (s : String) (l : List Node)
    (h : s ∉ nodeIds l) : removeChain s l = l := by
  induction l with
  | nil => rfl
  | cons n rest ih =>
    rw [nodeIds_cons, List.mem_cons] at h
    push_neg at h
    rw [removeChain, if_neg (fun hc => h.1 hc.symm), ih h.2]

theorem searchChain_removeChain (s r : String) (l : List Node) (hne : s ≠ r) :
    searchChain s (removeChain r l) = searchChain s l := by
  induction l with
  | nil => rfl
  | cons n rest ih =>
    by_cases h : n.bid.bidId = r
    · rw [removeChain, if_pos h, searchChain, if_neg (by rw [h]; exact fun hc => hne hc.symm)]
    · rw [removeChain, if_neg h]
      by_cases hs : n.bid.bidId = s
      · rw [searchChain, if_pos hs, searchChain, if_pos hs]
      · rw [searchChain, if_neg hs, searchChain, if_neg hs, ih]

theorem not_mem_nodeIds_removeChain (s : String) (l : List Node)
    (hl : (nodeIds l).Nodup) : s ∉ nodeIds (removeChain s l) := by
  induction l with
  | nil => simp [removeChain, nodeIds_nil]
  | cons n rest ih =>
    rw [nodeIds_cons, List.nodup_cons] at hl
    by_cases h : n.bid.bidId = s
    · rw [removeChain, if_pos h]
      rw [← h]
      exact hl.1
    · rw [removeChain, if_neg h, nodeIds_cons, List.mem_cons]
      push_neg
      exact ⟨fun hc => h hc.symm, ih hl.2⟩

theorem mem_nodeIds (s : String) (l : List Node) :
    s ∈ nodeIds l ↔ ∃ n ∈ l, n.bid.bidId = s := by
  simp [nodeIds]

theorem filter_id_eq_nil (s : String) (l : List Node)
    (h : s ∉ nodeIds l) : l.filter (fun n => n.bid.bidId == s) = [] := by
  refine List.filter_eq_nil_iff.mpr ?_
  intro n hn
  simp only [beq_iff_eq]
  intro hc
  exact h ((mem_nodeIds s l).mpr ⟨n, hn, hc⟩)

theorem filter_map_updateChain (bid : Bid) (k : Nat) (l : List Node)
    (hl : (nodeIds l).Nodup) :
    ((updateChain bid k l).filter (fun n => n.bid.bidId == bid.bidId)).map
      (fun n => n.bid) = [bid] := by
  induction l with
  | nil => simp [updateChain, List.filter_cons]
  | cons n rest ih =>
    rw [nodeIds_cons, List.nodup_cons] at hl
    by_cases h : n.bid.bidId = bid.bidId
    · rw [updateChain, if_pos h, List.filter_cons]
      rw [filter_id_eq_nil _ _ (by rw [← h]; exact hl.1)]
      simp
    · rw [updateChain, if_neg h, List.filter_cons]
      simp only [h, beq_iff_eq, if_false]
      exact ih hl.2

/-! ### Bucket-level lemmas -/

theorem occupants_occupied (b : Bucket) (h : b.head.key ≠ UINT_MAX) :
    b.occupants = b.head :: b.chain := by
  simp [Bucket.occupants, h]

theorem occupants_unoccupied (b : Bucket) (h : b.head.key = UINT_MAX) :
    b.occupants = b.chain := by
  simp [Bucket.occupants, h]

theorem chainWalk_fst (bid : Bid) (k : Nat) (curr : Node) (c : List Node) :
    (chainWalk bid k curr c).1 =
      if curr.bid.bidId = bid.bidId then ⟨bid, curr.key⟩ else curr := by
  cases c <;> (simp only [chainWalk]; split <;> rfl)

theorem insertB_head_key (b : Bucket) (bid : Bid) (k : Nat) :
    (b.insertB bid k).head.key = if b.head.key = UINT_MAX then k else b.head.key := by
  by_cases h : b.head.key = UINT_MAX
  · simp [Bucket.insertB, h]
  · simp only [Bucket.insertB, if_neg h, chainWalk_fst]
    split <;> simp [h]

theorem occupants_insertB (b : Bucket) (bid : Bid) (k : Nat)
    (hec : b.head.key = UINT_MAX → b.chain = []) (hk : k ≠ UINT_MAX) :
    (b.insertB bid k).occupants = updateChain bid k b.occupants := by
  by_cases h : b.head.key = UINT_MAX
  · rw [Bucket.insertB, if_pos h, occupants_unoccupied b h, hec h]
    rw [occupants_occupied _ (by simpa using hk)]
    rfl
  · rw [Bucket.insertB, if_neg h]
    have hkey : (chainWalk bid k b.head b.chain).1.key = b.head.key := by
      rw [chainWalk_fst]; split <;> rfl
    rw [occupants_occupied _ (by simpa [hkey] using h), occupants_occupied b h]
    exact chainWalk_cons bid k b.head b.chain

theorem insertB_chain_key (b : Bucket) (bid : Bid) (k : Nat)
    (hh : b.head.key ≠ UINT_MAX → b.head.key = k)
    (hc : ∀ n ∈ b.chain, n.key = k) :
    ∀ n ∈ (b.insertB bid k).chain, n.key = k := by
  by_cases h : b.head.key = UINT_MAX
  · simp [Bucket.insertB, h]
  · intro m hm
    simp only [Bucket.insertB, if_neg h] at hm
    have h2 : m ∈ (chainWalk bid k b.head b.chain).1 :: (chainWalk bid k b.head b.chain).2 :=
      List.mem_cons_of_mem _ hm
    rw [chainWalk_cons] at h2
    rcases updateChain_key bid k _ m h2 with hk | ⟨n', hn', hk⟩
    · exact hk
    · rcases List.mem_cons.mp hn' with rfl | hn'
      · exact hk.trans (hh h)
      · exact hk.trans (hc n' hn')

theorem insertB_empty_chain (b : Bucket) (bid : Bid) (k : Nat) (hk : k ≠ UINT_MAX) :
    (b.insertB bid k).head.key = UINT_MAX → (b.insertB bid k).chain = [] := by
  intro hkey
  exfalso
  rw [insertB_head_key] at hkey
  by_cases h : b.head.key = UINT_MAX
  · rw [if_pos h] at hkey; exact hk hkey
  · rw [if_neg h] at hkey; exact h hkey

theorem occupants_removeB (b : Bucket) (s : String)
    (hec : b.head.key = UINT_MAX → b.chain = [])
    (hck : ∀ n ∈ b.chain, n.key ≠ UINT_MAX) :
    (b.removeB s).occupants = removeChain s b.occupants := by
  by_cases h1 : b.head.key = UINT_MAX
  · have hch := hec h1
    rw [Bucket.removeB, if_pos ⟨h1, hch⟩, occupants_unoccupied b h1, hch]
    rfl
  · rw [occupants_occupied b h1]
    by_cases h2 : b.head.bid.bidId = s
    · rcases hc : b.chain with _ | ⟨n, rest⟩
      · rw [Bucket.removeB, hc, if_neg (by simp [h1]), if_pos ⟨h1, h2⟩]
        rw [removeChain, if_pos h2]
        simp [Bucket.occupants, emptyBucket, emptyNode]
      · rw [Bucket.removeB, hc, if_neg (by simp [h1]), if_pos ⟨h1, h2⟩]
        rw [removeChain, if_pos h2]
        have hn : n.key ≠ UINT_MAX := hck n (by rw [hc]; exact List.mem_cons_self n rest)
        rw [occupants_occupied _ (by simpa using hn)]
    · rw [Bucket.removeB, if_neg (by simp [h1]), if_neg (by simp [h2])]
      rw [removeChain, if_neg h2]
      rw [occupants_occupied _ (by simpa using h1)]

theorem removeB_head_key (b : Bucket) (s : String) (k : Nat)
    (hh : b.head.key ≠ UINT_MAX → b.head.key = k)
    (hc : ∀ n ∈ b.chain, n.key = k) :
    (b.removeB s).head.key ≠ UINT_MAX → (b.removeB s).head.key = k := by
  by_cases h1 : b.head.key = UINT_MAX ∧ b.chain = []
  · rw [Bucket.removeB, if_pos h1]; exact hh
  · by_cases h2 : b.head.key ≠ UINT_MAX ∧ b.head.bid.bidId = s
    · rcases hc2 : b.chain with _ | ⟨n, rest⟩
      · rw [Bucket.removeB, hc2, if_neg (by rw [hc2] at h1; exact h1), if_pos h2]
        intro hk
        exfalso
        apply hk
        rfl
      · rw [Bucket.removeB, hc2, if_neg (by rw [hc2] at h1; exact h1), if_pos h2]
        intro _
        exact hc n (by rw [hc2]; exact List.mem_cons_self n rest)
    · rw [Bucket.removeB, if_neg h1, if_neg h2]
      exact hh

theorem removeB_chain_sub (b : Bucket) (s : String) :
    ∀ n ∈ (b.removeB s).chain, n ∈ b.chain := by
  by_cases h1 : b.head.key = UINT_MAX ∧ b.chain = []
  · rw [Bucket.removeB, if_pos h1]; exact fun n hn => hn
  · by_cases h2 : b.head.key ≠ UINT_MAX ∧ b.head.bid.bidId = s
    · rcases hc2 : b.chain with _ | ⟨n, rest⟩
      · rw [Bucket.removeB, hc2, if_neg (by rw [hc2] at h1; exact h1), if_pos h2]
        simp [emptyBucket]
      · rw [Bucket.removeB, hc2, if_neg (by rw [hc2] at h1; exact h1), if_pos h2]
        intro m hm
        exact List.mem_cons_of_mem n (show m ∈ rest from hm)
    · rw [Bucket.removeB, if_neg h1, if_neg h2]
      intro m hm
      exact (removeChain_sublist s b.chain).mem hm

theorem removeB_empty_chain (b : Bucket) (s : String)
    (hec : b.head.key = UINT_MAX → b.chain = [])
    (hck : ∀ n ∈ b.chain, n.key ≠ UINT_MAX) :
    (b.removeB s).head.key = UINT_MAX → (b.removeB s).chain = [] := by
  by_cases h1 : b.head.key = UINT_MAX ∧ b.chain = []
  · rw [Bucket.removeB, if_pos h1]
    intro _
    exact h1.2
  · by_cases h2 : b.head.key ≠ UINT_MAX ∧ b.head.bid.bidId = s
    · rcases hc2 : b.chain with _ | ⟨n, rest⟩
      · rw [Bucket.removeB, hc2, if_neg (by rw [hc2] at h1; exact h1), if_pos h2]
        intro _
        rfl
      · rw [Bucket.removeB, hc2, if_neg (by rw [hc2] at h1; exact h1), if_pos h2]
        intro hk
        exact absurd hk (hck n (by rw [hc2]; exact List.mem_cons_self n rest))
    · rw [Bucket.removeB, if_neg h1, if_neg h2]
      intro hk
      rw [hec hk]
      rfl

theorem searchB_eq_occupants (b : Bucket) (s : String) :
    b.searchB s = searchChain s b.occupants := by
  by_cases h : b.head.key = UINT_MAX
  · rw [Bucket.searchB, if_neg (by simp [h]), occupants_unoccupied b h]
  · by_cases hm : b.head.bid.bidId = s
    · rw [Bucket.searchB, if_pos ⟨h, hm⟩, occupants_occupied b h, searchChain, if_pos hm]
    · rw [Bucket.searchB, if_neg (by simp [hm]), occupants_occupied b h, searchChain, if_neg hm]

theorem printNodes_eq_occupants (b : Bucket)
    (hck : ∀ n ∈ b.chain, n.key ≠ UINT_MAX) :
    b.printNodes = b.occupants := by
  have hchain : b.chain.filter (fun n => decide (n.key ≠ UINT_MAX)) = b.chain :=
    List.filter_eq_self.mpr (fun a ha => by simpa using hck a ha)
  by_cases h : b.head.key = UINT_MAX
  · rw [Bucket.printNodes, Bucket.occupants, List.filter_cons]
    simp only [h, decide_not]
    simpa [h] using hchain
  · rw [Bucket.printNodes, Bucket.occupants, List.filter_cons]
    simp only [decide_not]
    simpa [h] using hchain

/-! ### Table-level access lemmas -/

theorem bucketAt_lt (t : HashTable) (i : Nat) (h : i < t.nodes.length) :
    t.bucketAt i = t.nodes.get ⟨i, h⟩ :=
  List.getD_eq_get t.nodes emptyBucket h

theorem set_bucketAt_self (t : HashTable) (i : Nat) (h : i < t.nodes.length) :
    t.nodes.set i (t.bucketAt i) = t.nodes := by
  apply List.ext_get?
  intro j
  by_cases hij : i = j
  · subst hij
    rw [List.get?_set_eq_of_lt _ h, bucketAt_lt t i h, List.get?_eq_get h]
  · exact List.get?_set_ne _ _ hij

theorem bucketAt_mk_set_self (l : List Bucket) (i : Nat) (h : i < l.length) (b : Bucket) :
    (HashTable.mk (l.set i b)).bucketAt i = b := by
  show ((l.set i b).get? i).getD emptyBucket = b
  rw [List.get?_set_eq_of_lt _ h]
  rfl

theorem bucketAt_mk_set_ne (l : List Bucket) (i j : Nat) (b : Bucket) (h : i ≠ j) :
    (HashTable.mk (l.set i b)).bucketAt j = (HashTable.mk l).bucketAt j := by
  show ((l.set i b).get? j).getD emptyBucket = (l.get? j).getD emptyBucket
  rw [List.get?_set_ne _ _ h]

theorem length_Insert (t : HashTable) (hf : String → Nat) (bid : Bid) :
    (t.Insert hf bid).nodes.length = t.nodes.length := by
  simp [HashTable.Insert]

theorem length_Remove (t : HashTable) (hf : String → Nat) (s : String) :
    (t.Remove hf s).nodes.length = t.nodes.length := by
  simp [HashTable.Remove]

theorem bucketAt_Insert_self (t : HashTable) (hf : String → Nat) (bid : Bid)
    (hpos : 0 < t.nodes.length) :
    (t.Insert hf bid).bucketAt (hf bid.bidId % t.nodes.length) =
      (t.bucketAt (hf bid.bidId % t.nodes.length)).insertB bid
        (hf bid.bidId % t.nodes.length) :=
  bucketAt_mk_set_self _ _ (Nat.mod_lt _ hpos) _

theorem bucketAt_Insert_ne (t : HashTable) (hf : String → Nat) (bid : Bid) (j : Nat)
    (hj : j ≠ hf bid.bidId % t.nodes.length) :
    (t.Insert hf bid).bucketAt j = t.bucketAt j :=
  bucketAt_mk_set_ne _ _ _ _ (fun hc => hj hc.symm)

theorem bucketAt_Remove_self (t : HashTable) (hf : String → Nat) (s : String)
    (hpos : 0 < t.nodes.length) :
    (t.Remove hf s).bucketAt (hf s % t.nodes.length) =
      (t.bucketAt (hf s % t.nodes.length)).removeB s :=
  bucketAt_mk_set_self _ _ (Nat.mod_lt _ hpos) _

theorem bucketAt_Remove_ne (t : HashTable) (hf : String → Nat) (s : String) (j : Nat)
    (hj : j ≠ hf s % t.nodes.length) :
    (t.Remove hf s).bucketAt j = t.bucketAt j :=
  bucketAt_mk_set_ne _ _ _ _ (fun hc => hj hc.symm)

theorem Search_eq (t : HashTable) (hf : String → Nat) (s : String) :
    t.Search hf s = searchChain s ((t.bucketAt (hf s % t.nodes.length)).occupants) := by
  show (t.bucketAt (hf s % t.nodes.length)).searchB s = _
  exact searchB_eq_occupants _ s

theorem mem_occAll (t : HashTable) (n : Node) :
    n ∈ t.occAll ↔ ∃ i, ∃ h : i < t.nodes.length, n ∈ (t.bucketAt i).occupants := by
  rw [HashTable.occAll, List.mem_flatMap]
  constructor
  · rintro ⟨b, hb, hn⟩
    rcases List.mem_iff_get.mp hb with ⟨⟨i, hi⟩, rfl⟩
    exact ⟨i, hi, by rwa [bucketAt_lt t i hi]⟩
  · rintro ⟨i, hi, hn⟩
    refine ⟨t.bucketAt i, ?_, hn⟩
    rw [bucketAt_lt t i hi]
    exact List.get_mem t.nodes i hi

theorem containsId_iff (t : HashTable) (s : String) :
    t.containsId s ↔ ∃ i, ∃ h : i < t.nodes.length,
      s ∈ nodeIds (t.bucketAt i).occupants := by
  rw [HashTable.containsId, HashTable.ids]
  constructor
  · intro hs
    rcases List.mem_map.mp hs with ⟨n, hn, rfl⟩
    rcases (mem_occAll t n).mp hn with ⟨i, hi, hmem⟩
    exact ⟨i, hi, List.mem_map_of_mem _ hmem⟩
  · rintro ⟨i, hi, hs⟩
    rcases List.mem_map.mp hs with ⟨n, hn, rfl⟩
    exact List.mem_map_of_mem _ ((mem_occAll t n).mpr ⟨i, hi, hn⟩)

/-! ### The reachable-state invariants -/

theorem length_create (size : Nat) :
    (HashTable.create size).nodes.length = if size = 0 then DEFAULT_SIZE else size := by
  simp [HashTable.create]

theorem create_bucketAt (size : Nat) (i : Nat)
    (hi : i < (HashTable.create size).nodes.length) :
    (HashTable.create size).bucketAt i = emptyBucket := by
  rw [bucketAt_lt _ i hi]
  simp [HashTable.create, List.get_replicate]

theorem wf_create (hf : String → Nat) (size : Nat) (hle : size ≤ UINT_MAX) :
    WF hf (HashTable.create size) := by
  have hb := create_bucketAt size
  constructor
  · rw [length_create]
    split
    · simp [DEFAULT_SIZE]
    · omega
  · rw [length_create]
    split
    · simp [DEFAULT_SIZE, UINT_MAX]
    · exact hle
  · intro i hi hkey
    rw [hb i hi] at hkey
    exact absurd rfl hkey
  · intro i hi _
    rw [hb i hi]
    rfl
  · intro i hi n hn
    rw [hb i hi] at hn
    simp [emptyBucket] at hn
  · intro i hi n hn
    rw [hb i hi] at hn
    simp [Bucket.occupants, emptyBucket, emptyNode] at hn
  · intro i hi
    rw [hb i hi]
    simp [Bucket.occupants, emptyBucket, emptyNode, nodeIds]

theorem wf_insert (hf : String → Nat) (t : HashTable) (bid : Bid) (hwf : WF hf t) :
    WF hf (t.Insert hf bid) := by
  have hlen := length_Insert t hf bid
  have hidxlt : hf bid.bidId % t.nodes.length < t.nodes.length := Nat.mod_lt _ hwf.pos
  have hidxne : hf bid.bidId % t.nodes.length ≠ UINT_MAX := by
    have := hwf.size_le
    omega
  have hself := bucketAt_Insert_self t hf bid hwf.pos
  have hne := bucketAt_Insert_ne t hf bid
  set i0 := hf bid.bidId % t.nodes.length with hi0
  set b := t.bucketAt i0 with hb
  have hec : b.head.key = UINT_MAX → b.chain = [] := hwf.empty_chain i0 hidxlt
  constructor
  · rw [hlen]; exact hwf.pos
  · rw [hlen]; exact hwf.size_le
  · intro j hj hkey
    rw [hlen] at hj
    by_cases hji : j = i0
    · subst hji
      rw [hself] at hkey ⊢
      rw [insertB_head_key] at hkey ⊢
      by_cases hh : b.head.key = UINT_MAX
      · rw [if_pos hh]
      · rw [if_neg hh] at hkey ⊢
        exact hwf.head_key _ hj hkey
    · rw [hne j hji] at hkey ⊢
      exact hwf.head_key _ hj hkey
  · intro j hj hkey
    rw [hlen] at hj
    by_cases hji : j = i0
    · subst hji
      rw [hself] at hkey ⊢
      exact insertB_empty_chain b bid _ hidxne hkey
    · rw [hne j hji] at hkey ⊢
      exact hwf.empty_chain _ hj hkey
  · intro j hj n hn
    rw [hlen] at hj
    by_cases hji : j = i0
    · subst hji
      rw [hself] at hn
      exact insertB_chain_key b bid _ (hwf.head_key _ hj) (hwf.chain_key _ hj) n hn
    · rw [hne j hji] at hn
      exact hwf.chain_key _ hj n hn
  · intro j hj n hn
    rw [hlen] at hj
    rw [hlen]
    by_cases hji : j = i0
    · subst hji
      rw [hself, occupants_insertB b bid _ hec hidxne] at hn
      have hid : n.bid.bidId ∈ nodeIds (updateChain bid i0 b.occupants) :=
        List.mem_map_of_mem _ hn
      rcases mem_nodeIds_updateChain bid i0 b.occupants _ hid with h1 | h1
      · rcases (mem_nodeIds _ _).mp h1 with ⟨m, hm, hmeq⟩
        rw [← hmeq]
        exact hwf.home _ hj m hm
      · rw [h1]
    · rw [hne j hji] at hn
      exact hwf.home _ hj n hn
  · intro j hj
    rw [hlen] at hj
    by_cases hji : j = i0
    · subst hji
      rw [hself, occupants_insertB b bid _ hec hidxne]
      exact nodup_nodeIds_updateChain bid i0 b.occupants (hwf.bucket_nodup _ hj)
    · rw [hne j hji]
      exact hwf.bucket_nodup _ hj

theorem wf_remove (hf : String → Nat) (t : HashTable) (s : String) (hwf : WF hf t) :
    WF hf (t.Remove hf s) := by
  have hlen := length_Remove t hf s
  have hidxlt : hf s % t.nodes.length < t.nodes.length := Nat.mod_lt _ hwf.pos
  have hidxne : hf s % t.nodes.length ≠ UINT_MAX := by
    have := hwf.size_le
    omega
  have hself := bucketAt_Remove_self t hf s hwf.pos
  have hne := bucketAt_Remove_ne t hf s
  set i0 := hf s % t.nodes.length with hi0
  set b := t.bucketAt i0 with hb
  have hec : b.head.key = UINT_MAX → b.chain = [] := hwf.empty_chain i0 hidxlt
  have hck : ∀ n ∈ b.chain, n.key ≠ UINT_MAX := fun n hn => by
    rw [hwf.chain_key i0 hidxlt n hn]
    exact hidxne
  constructor
  · rw [hlen]; exact hwf.pos
  · rw [hlen]; exact hwf.size_le
  · intro j hj hkey
    rw [hlen] at hj
    by_cases hji : j = i0
    · subst hji
      rw [hself] at hkey ⊢
      exact removeB_head_key b s _ (hwf.head_key _ hj) (hwf.chain_key _ hj) hkey
    · rw [hne j hji] at hkey ⊢
      exact hwf.head_key _ hj hkey
  · intro j hj hkey
    rw [hlen] at hj
    by_cases hji : j = i0
    · subst hji
      rw [hself] at hkey ⊢
      exact removeB_empty_chain b s hec hck hkey
    · rw [hne j hji] at hkey ⊢
      exact hwf.empty_chain _ hj hkey
  · intro j hj n hn
    rw [hlen] at hj
    by_cases hji : j = i0
    · subst hji
      rw [hself] at hn
      exact hwf.chain_key _ hj n (removeB_chain_sub b s n hn)
    · rw [hne j hji] at hn
      exact hwf.chain_key _ hj n hn
  · intro j hj n hn
    rw [hlen] at hj
    rw [hlen]
    by_cases hji : j = i0
    · subst hji
      rw [hself, occupants_removeB b s hec hck] at hn
      exact hwf.home _ hj n ((removeChain_sublist s b.occupants).mem hn)
    · rw [hne j hji] at hn
      exact hwf.home _ hj n hn
  · intro j hj
    rw [hlen] at hj
    by_cases hji : j = i0
    · subst hji
      rw [hself, occupants_removeB b s hec hck]
      have hsub : (nodeIds (removeChain s b.occupants)).Sublist (nodeIds b.occupants) :=
        (removeChain_sublist s b.occupants).map _
      exact (hwf.bucket_nodup _ hj).sublist hsub
    · rw [hne j hji]
      exact hwf.bucket_nodup _ hj

theorem reachable_wf {hf : String → Nat} {t : HashTable} (h : Reachable hf t) :
    WF hf t := by
  induction h with
  | init size hle => exact wf_create hf size hle
  | insert bid _ ih => exact wf_insert hf _ bid ih
  | remove s _ ih => exact wf_remove hf _ s ih

/-! ### Support lemmas for the claimed properties -/

theorem chain_ids_sub_occupants (b : Bucket) (s : String)
    (h : s ∈ nodeIds b.chain) : s ∈ nodeIds b.occupants := by
  rw [Bucket.occupants, nodeIds_append]
  exact List.mem_append_right _ h

theorem printAll_eq_occAll (hf : String → Nat) (t : HashTable) (hwf : WF hf t) :
    t.PrintAll = t.occAll := by
  rw [HashTable.PrintAll, HashTable.occAll]
  have hmap : t.nodes.map Bucket.printNodes = t.nodes.map Bucket.occupants := by
    apply List.map_eq_map_iff.mpr
    intro b hb
    rcases List.mem_iff_get.mp hb with ⟨⟨i, hi⟩, rfl⟩
    apply printNodes_eq_occupants
    intro n hn
    rw [← bucketAt_lt t i hi] at hn
    rw [hwf.chain_key i hi n hn]
    have := hwf.size_le
    omega
  calc t.nodes.flatMap Bucket.printNodes = (t.nodes.map Bucket.printNodes).flatten := rfl
    _ = (t.nodes.map Bucket.occupants).flatten := by rw [hmap]
    _ = t.nodes.flatMap Bucket.occupants := rfl

theorem occAll_set (t : HashTable) (i : Nat) (h : i < t.nodes.length) (b : Bucket) :
    (HashTable.mk (t.nodes.set i b)).occAll =
      (t.nodes.take i).flatMap Bucket.occupants ++
        (b.occupants ++ (t.nodes.drop (i+1)).flatMap Bucket.occupants) := by
  show (t.nodes.set i b).flatMap Bucket.occupants = _
  rw [List.set_eq_take_append_cons_drop, if_pos h, List.flatMap_append]
  rfl

theorem occAll_decomp (t : HashTable) (i : Nat) (h : i < t.nodes.length) :
    t.occAll = (t.nodes.take i).flatMap Bucket.occupants ++
      ((t.bucketAt i).occupants ++ (t.nodes.drop (i+1)).flatMap Bucket.occupants) := by
  have h1 := occAll_set t i h (t.bucketAt i)
  rw [set_bucketAt_self t i h] at h1
  exact h1

theorem mem_flatMap_take (l : List Bucket) (k : Nat) (n : Node)
    (hn : n ∈ (l.take k).flatMap Bucket.occupants) :
    ∃ j, ∃ hj : j < l.length, j < k ∧ n ∈ (l.get ⟨j, hj⟩).occupants := by
  rcases List.mem_flatMap.mp hn with ⟨b, hb, hnb⟩
  rcases List.mem_take_iff_getElem.mp hb with ⟨j, hj, hbe⟩
  have h1 : j < k := lt_of_lt_of_le hj (min_le_left _ _)
  have h2 : j < l.length := lt_of_lt_of_le hj (min_le_right _ _)
  refine ⟨j, h2, h1, ?_⟩
  rw [List.get_eq_getElem, hbe]
  exact hnb

theorem mem_flatMap_drop (l : List Bucket) (k : Nat) (n : Node)
    (hn : n ∈ (l.drop k).flatMap Bucket.occupants) :
    ∃ j, ∃ hj : j < l.length, k ≤ j ∧ n ∈ (l.get ⟨j, hj⟩).occupants := by
  rcases List.mem_flatMap.mp hn with ⟨b, hb, hnb⟩
  rcases List.mem_drop_iff_getElem.mp hb with ⟨j, hj, hbe⟩
  have h2 : k + j < l.length := by omega
  refine ⟨k + j, h2, by omega, ?_⟩
  rw [List.get_eq_getElem, hbe]
  exact hnb

theorem side_occupants_ne (hf : String → Nat) (t : HashTable) (hwf : WF hf t)
    (s : String) (n : Node)
    (hn : n ∈ (t.nodes.take (hf s % t.nodes.length)).flatMap Bucket.occupants ∨
          n ∈ (t.nodes.drop (hf s % t.nodes.length + 1)).flatMap Bucket.occupants) :
    n.bid.bidId ≠ s := by
  intro hcontra
  rcases hn with hn | hn
  · rcases mem_flatMap_take t.nodes _ n hn with ⟨j, hjlen, hjlt, hmem⟩
    have hhome := hwf.home j hjlen n (by rw [bucketAt_lt t j hjlen]; exact hmem)
    rw [hcontra] at hhome
    omega
  · rcases mem_flatMap_drop t.nodes _ n hn with ⟨j, hjlen, hjge, hmem⟩
    have hhome := hwf.home j hjlen n (by rw [bucketAt_lt t j hjlen]; exact hmem)
    rw [hcontra] at hhome
    omega

theorem contains_search (hf : String → Nat) (t : HashTable) (s : String)
    (hwf : WF hf t) (hc : t.containsId s) : (t.Search hf s).bidId = s := by
  rw [Search_eq]
  rcases (containsId_iff t s).mp hc with ⟨i, hi, hmem⟩
  have hhome : hf s % t.nodes.length = i := by
    rcases (mem_nodeIds _ _).mp hmem with ⟨n, hn, hneq⟩
    rw [← hneq]
    exact hwf.home i hi n hn
  rw [hhome]
  exact searchChain_mem s _ hmem

theorem not_contains_bucket (hf : String → Nat) (t : HashTable) (s : String)
    (hpos : 0 < t.nodes.length) (hnc : ¬ t.containsId s) :
    s ∉ nodeIds ((t.bucketAt (hf s % t.nodes.length)).occupants) := by
  intro hmem
  exact hnc ((containsId_iff t s).mpr ⟨_, Nat.mod_lt _ hpos, hmem⟩)

theorem search_of_not_contains (hf : String → Nat) (t : HashTable) (s : String)
    (hpos : 0 < t.nodes.length) (hnc : ¬ t.containsId s) :
    t.Search hf s = emptyBid := by
  rw [Search_eq]
  exact searchChain_of_not_mem s _ (not_contains_bucket hf t s hpos hnc)

theorem remove_of_not_contains (hf : String → Nat) (t : HashTable) (s : String)
    (hwf : WF hf t) (hnc : ¬ t.containsId s) : t.Remove hf s = t := by
  have hidxlt : hf s % t.nodes.length < t.nodes.length := Nat.mod_lt _ hwf.pos
  have hbmem := not_contains_bucket hf t s hwf.pos hnc
  set i0 := hf s % t.nodes.length with hi0
  set b := t.bucketAt i0 with hb
  have hrb : b.removeB s = b := by
    by_cases h1 : b.head.key = UINT_MAX ∧ b.chain = []
    · rw [Bucket.removeB, if_pos h1]
    · by_cases h2 : b.head.key ≠ UINT_MAX ∧ b.head.bid.bidId = s
      · exfalso
        apply hbmem
        rw [occupants_occupied b h2.1, nodeIds_cons, ← h2.2]
        exact List.mem_cons_self _ _
      · rw [Bucket.removeB, if_neg h1, if_neg h2]
        have hchain : removeChain s b.chain = b.chain := by
          apply removeChain_of_not_mem
          intro hmem
          exact hbmem (chain_ids_sub_occupants b s hmem)
        rw [hchain]
  show HashTable.mk (t.nodes.set i0 (b.removeB s)) = t
  rw [hrb, hb, set_bucketAt_self t i0 hidxlt]

theorem not_contains_remove (hf : String → Nat) (t : HashTable) (s : String)
    (hwf : WF hf t) : ¬ (t.Remove hf s).containsId s := by
  have hidxlt : hf s % t.nodes.length < t.nodes.length := Nat.mod_lt _ hwf.pos
  have hidxne : hf s % t.nodes.length ≠ UINT_MAX := by
    have := hwf.size_le
    omega
  have hck : ∀ n ∈ (t.bucketAt (hf s % t.nodes.length)).chain, n.key ≠ UINT_MAX :=
    fun n hn => by
      rw [hwf.chain_key _ hidxlt n hn]
      exact hidxne
  intro hc
  rcases (containsId_iff _ s).mp hc with ⟨i, hi, hmem⟩
  rw [length_Remove] at hi
  by_cases hji : i = hf s % t.nodes.length
  · rw [hji, bucketAt_Remove_self t hf s hwf.pos,
      occupants_removeB _ s (hwf.empty_chain _ hidxlt) hck] at hmem
    exact not_mem_nodeIds_removeChain s _ (hwf.bucket_nodup _ hidxlt) hmem
  · rw [bucketAt_Remove_ne t hf s i hji] at hmem
    rcases (mem_nodeIds _ _).mp hmem with ⟨n, hn, hneq⟩
    have hhome := hwf.home i hi n hn
    rw [hneq] at hhome
    exact hji hhome.symm

theorem wf_ids_nodup (hf : String → Nat) (t : HashTable) (hwf : WF hf t) :
    t.ids.Nodup := by
  rw [HashTable.ids, HashTable.occAll, List.map_flatMap]
  rw [show (t.nodes.flatMap fun b => b.occupants.map fun n => n.bid.bidId) =
      (t.nodes.map fun b => nodeIds b.occupants).flatten from rfl]
  rw [List.nodup_join]
  constructor
  · intro l hl
    rcases List.mem_map.mp hl with ⟨b, hb, rfl⟩
    rcases List.mem_iff_get.mp hb with ⟨⟨i, hi⟩, rfl⟩
    rw [← bucketAt_lt t i hi]
    exact hwf.bucket_nodup i hi
  · rw [List.pairwise_iff_get]
    intro i j hij
    rw [List.get_map, List.get_map]
    intro s hs1 hs2
    have hilen : (i : Nat) < t.nodes.length := by
      have := i.isLt
      simpa using this
    have hjlen : (j : Nat) < t.nodes.length := by
      have := j.isLt
      simpa using this
    have hs1a : s ∈ nodeIds (t.bucketAt (i : Nat)).occupants := by
      rw [bucketAt_lt t _ hilen]
      exact hs1
    have hs2a : s ∈ nodeIds (t.bucketAt (j : Nat)).occupants := by
      rw [bucketAt_lt t _ hjlen]
      exact hs2
    have h1 : hf s % t.nodes.length = (i : Nat) := by
      rcases (mem_nodeIds _ _).mp hs1a with ⟨n, hn, hneq⟩
      rw [← hneq]
      exact hwf.home _ hilen n hn
    have h2 : hf s % t.nodes.length = (j : Nat) := by
      rcases (mem_nodeIds _ _).mp hs2a with ⟨n, hn, hneq⟩
      rw [← hneq]
      exact hwf.home _ hjlen n hn
    have : (i : Nat) = (j : Nat) := by rw [← h1, ← h2]
    exact absurd this (Nat.ne_of_lt hij)

theorem insert_then_search (hf : String → Nat) (t : HashTable) (bid : Bid)
    (hpos : 0 < t.nodes.length) (hle : t.nodes.length ≤ UINT_MAX) :
    (t.Insert hf bid).Search hf bid.bidId = bid := by
  have hlen := length_Insert t hf bid
  have hidxne : hf bid.bidId % t.nodes.length ≠ UINT_MAX := by
    have := Nat.mod_lt (hf bid.bidId) hpos
    omega
  have hself := bucketAt_Insert_self t hf bid hpos
  show ((t.Insert hf bid).bucketAt
      (hf bid.bidId % (t.Insert hf bid).nodes.length)).searchB bid.bidId = bid
  rw [hlen, hself]
  set b := t.bucketAt (hf bid.bidId % t.nodes.length) with hb
  by_cases h : b.head.key = UINT_MAX
  · rw [Bucket.insertB, if_pos h, Bucket.searchB, if_pos ⟨hidxne, rfl⟩]
  · rw [searchB_eq_occupants, Bucket.insertB, if_neg h]
    have hkey : (chainWalk bid (hf bid.bidId % t.nodes.length) b.head b.chain).1.key =
        b.head.key := by
      rw [chainWalk_fst]; split <;> rfl
    rw [occupants_occupied _ (by rw [hkey]; exact h), chainWalk_cons]
    exact searchChain_updateChain bid _ _

/-! ### The claimed properties -/

/-- Claim C1 (round-trip): for every record R with a non-empty identifier
and any table state (every constructed table has between 1 and UINT_MAX
buckets), performing Insert R and then Search on R.bidId returns a record
equal to R in all four fields; equality of the Bid structure is exactly
fieldwise equality of bidId, title, fund and amount. -/
theorem insert_search_roundtrip (hf : String → Nat) (t : HashTable) (R : Bid)
    (hid : R.bidId ≠ "") (hpos : 0 < t.nodes.length)
    (hle : t.nodes.length ≤ UINT_MAX) :
    (t.Insert hf R).Search hf R.bidId = R :=
  insert_then_search hf t R hpos hle

/-- Claim C3 (collision independence): for two distinct identifiers a and b
both present in a reachable table, in particular when both hash to the same
bucket, Search returns each its own stored record; after Remove a, Search b
is unchanged while Search a returns the sentinel record. -/
theorem collision_independence (hf : String → Nat) (t : HashTable) (a b : String)
    (hre : Reachable hf t) (hab : a ≠ b) (hca : t.containsId a)
    (hcb : t.containsId b) :
    (t.Search hf a).bidId = a ∧ (t.Search hf b).bidId = b ∧
    (t.Remove hf a).Search hf b = t.Search hf b ∧
    (t.Remove hf a).Search hf a = emptyBid := by
  have hwf := reachable_wf hre
  have hidxlt : hf a % t.nodes.length < t.nodes.length := Nat.mod_lt _ hwf.pos
  have hidxne : hf a % t.nodes.length ≠ UINT_MAX := by
    have := hwf.size_le
    omega
  have hec := hwf.empty_chain _ hidxlt
  have hck : ∀ n ∈ (t.bucketAt (hf a % t.nodes.length)).chain, n.key ≠ UINT_MAX :=
    fun n hn => by
      rw [hwf.chain_key _ hidxlt n hn]
      exact hidxne
  refine ⟨contains_search hf t a hwf hca, contains_search hf t b hwf hcb, ?_, ?_⟩
  · rw [Search_eq, Search_eq t hf b, length_Remove]
    by_cases hib : hf b % t.nodes.length = hf a % t.nodes.length
    · rw [hib, bucketAt_Remove_self t hf a hwf.pos, occupants_removeB _ a hec hck]
      exact searchChain_removeChain b a _ (Ne.symm hab)
    · rw [bucketAt_Remove_ne t hf a _ hib]
  · rw [Search_eq, length_Remove, bucketAt_Remove_self t hf a hwf.pos,
      occupants_removeB _ a hec hck]
    exact searchChain_of_not_mem a _
      (not_mem_nodeIds_removeChain a _ (hwf.bucket_nodup _ hidxlt))

/-- Claim C4 (enumeration completeness and order): in every reachable
table state, PrintAll emits exactly the occupied nodes, visiting buckets in
ascending index order and within a bucket the head slot first followed by
the overflow nodes in insertion order, skipping unoccupied head slots; and
the emitted identifiers contain no duplicates. -/
theorem printAll_complete_nodup (hf : String → Nat) (t : HashTable)
    (hre : Reachable hf t) :
    t.PrintAll = t.nodes.flatMap Bucket.occupants ∧
    (t.PrintAll.map fun n => n.bid.bidId).Nodup := by
  have hwf := reachable_wf hre
  refine ⟨printAll_eq_occAll hf t hwf, ?_⟩
  rw [printAll_eq_occAll hf t hwf]
  exact wf_ids_nodup hf t hwf

/-- Claim C5 (occupied-head-key invariant): in every table state reachable
by Insert and Remove operations from a constructed table, every occupied
head slot (key not UINT_MAX) stores its own bucket index in its key field;
in particular Remove re-establishes this when it promotes an overflow node
into the head slot. -/
theorem occupied_head_key_eq_index (hf : String → Nat) (t : HashTable)
    (hre : Reachable hf t) :
    ∀ i < t.nodes.length,
      (t.bucketAt i).head.key ≠ UINT_MAX → (t.bucketAt i).head.key = i :=
  (reachable_wf hre).head_key

/-- Claim C6 (remove idempotence): on every reachable table state, Remove
twice with the same identifier equals Remove once, and Remove of an
identifier not present in the table leaves the state unchanged. -/
theorem remove_idempotent (hf : String → Nat) (t : HashTable) (s : String)
    (hre : Reachable hf t) :
    (t.Remove hf s).Remove hf s = t.Remove hf s ∧
    (¬ t.containsId s → t.Remove hf s = t) := by
  have hwf := reachable_wf hre
  have hwfr := wf_remove hf t s hwf
  exact ⟨remove_of_not_contains hf _ s hwfr (not_contains_remove hf t s hwf),
    fun hnc => remove_of_not_contains hf t s hwf hnc⟩

/-- Claim C7 (search miss is a value): for every identifier not stored in
the table, Search returns the sentinel record, the default-constructed Bid
with empty identifier; Search is a total function, so no input raises. -/
theorem search_miss_sentinel (hf : String → Nat) (t : HashTable) (s : String)
    (hpos : 0 < t.nodes.length) (hnc : ¬ t.containsId s) :
    t.Search hf s = emptyBid ∧ emptyBid.bidId = "" :=
  ⟨search_of_not_contains hf t s hpos hnc, rfl⟩

/-- Claim C8 (remove frame property): Remove with identifier s mutates at
most the bucket at index hf s mod tableSize; every other bucket index holds
exactly the same head slot and chain afterwards, and the bucket count is
unchanged. -/
theorem remove_frame (hf : String → Nat) (t : HashTable) (s : String) (j : Nat)
    (hj : j ≠ hf s % t.nodes.length) :
    (t.Remove hf s).bucketAt j = t.bucketAt j ∧
    (t.Remove hf s).nodes.length = t.nodes.length :=
  ⟨bucketAt_Remove_ne t hf s j hj, length_Remove t hf s⟩

/-- Claim C9 (empty identifiers tolerated silently): Insert of a record
whose identifier is the empty string stores it like any other record, a
subsequent Search with the empty string returns that stored record, and its
identifier field equals the sentinel identifier, so a caller checking
identifier emptiness cannot distinguish it from an absent record. -/
theorem empty_id_insert_search (hf : String → Nat) (t : HashTable) (R : Bid)
    (hid : R.bidId = "") (hpos : 0 < t.nodes.length)
    (hle : t.nodes.length ≤ UINT_MAX) :
    (t.Insert hf R).Search hf "" = R ∧ R.bidId = emptyBid.bidId := by
  constructor
  · rw [← hid]
    exact insert_then_search hf t R hpos hle
  · rw [hid]
    rfl

/-- Claim C10 (unoccupied-head-implies-empty-chain invariant): in every
reachable table state, a head slot whose key equals UINT_MAX has no
overflow chain; Insert relies on this when it nulls the next pointer on
occupying an empty head, and Remove when it returns early on an unoccupied
head with a null chain pointer. -/
theorem unoccupied_head_empty_chain (hf : String → Nat) (t : HashTable)
    (hre : Reachable hf t) :
    ∀ i < t.nodes.length,
      (t.bucketAt i).head.key = UINT_MAX → (t.bucketAt i).chain = [] :=
  (reachable_wf hre).empty_chain

theorem occAll_insert (hf : String → Nat) (t : HashTable) (bid : Bid) (hwf : WF hf t) :
    (t.Insert hf bid).occAll =
      (t.nodes.take (hf bid.bidId % t.nodes.length)).flatMap Bucket.occupants ++
        (updateChain bid (hf bid.bidId % t.nodes.length)
            ((t.bucketAt (hf bid.bidId % t.nodes.length)).occupants) ++
          (t.nodes.drop (hf bid.bidId % t.nodes.length + 1)).flatMap
            Bucket.occupants) := by
  have hidxlt : hf bid.bidId % t.nodes.length < t.nodes.length := Nat.mod_lt _ hwf.pos
  have hidxne : hf bid.bidId % t.nodes.length ≠ UINT_MAX := by
    have := hwf.size_le
    omega
  have h1 := occAll_set t (hf bid.bidId % t.nodes.length) hidxlt
    ((t.bucketAt (hf bid.bidId % t.nodes.length)).insertB bid
      (hf bid.bidId % t.nodes.length))
  rw [occupants_insertB _ bid _ (hwf.empty_chain _ hidxlt) hidxne] at h1
  exact h1

/-- Claim C2 (update, not duplicate): inserting two records with the same
non-empty identifier but different payloads into a reachable table leaves
exactly one record under that identifier in the enumeration, holding the
payload of the second insert, and the number of enumerated records is the
same after the second insert as after the first. -/
theorem insert_update_not_duplicate (hf : String → Nat) (t : HashTable) (R1 R2 : Bid)
    (hre : Reachable hf t) (hid : R1.bidId = R2.bidId) (hne2 : R1.bidId ≠ "")
    (hpay : R1 ≠ R2) :
    ((((t.Insert hf R1).Insert hf R2).PrintAll.filter
        fun n => n.bid.bidId == R2.bidId).map fun n => n.bid) = [R2] ∧
    ((t.Insert hf R1).Insert hf R2).PrintAll.length =
      (t.Insert hf R1).PrintAll.length := by
  have hwf := reachable_wf hre
  have hwf1 := wf_insert hf t R1 hwf
  have hwf2 := wf_insert hf (t.Insert hf R1) R2 hwf1
  have hidxlt : hf R2.bidId % t.nodes.length < t.nodes.length := Nat.mod_lt _ hwf.pos
  have hidxne : hf R2.bidId % t.nodes.length ≠ UINT_MAX := by
    have := hwf.size_le
    omega
  have hlen1 : (t.Insert hf R1).nodes.length = t.nodes.length := length_Insert t hf R1
  have hidxlt1 : hf R2.bidId % t.nodes.length < (t.Insert hf R1).nodes.length := by
    rw [hlen1]
    exact hidxlt
  have hA := bucketAt_Insert_self t hf R1 hwf.pos
  rw [hid] at hA
  have hocc1 : ((t.Insert hf R1).bucketAt (hf R2.bidId % t.nodes.length)).occupants =
      updateChain R1 (hf R2.bidId % t.nodes.length)
        ((t.bucketAt (hf R2.bidId % t.nodes.length)).occupants) := by
    rw [hA]
    exact occupants_insertB _ R1 _ (hwf.empty_chain _ hidxlt) hidxne
  have hmem1 : R2.bidId ∈
      nodeIds ((t.Insert hf R1).bucketAt (hf R2.bidId % t.nodes.length)).occupants := by
    rw [hocc1, ← hid]
    exact self_mem_nodeIds_updateChain R1 _ _
  have hdec2 := occAll_insert hf (t.Insert hf R1) R2 hwf1
  rw [hlen1] at hdec2
  have hdec1 := occAll_decomp (t.Insert hf R1) (hf R2.bidId % t.nodes.length) hidxlt1
  have hside := side_occupants_ne hf (t.Insert hf R1) hwf1 R2.bidId
  rw [hlen1] at hside
  have hAnil : (((t.Insert hf R1).nodes.take (hf R2.bidId % t.nodes.length)).flatMap
      Bucket.occupants).filter (fun n => n.bid.bidId == R2.bidId) = [] := by
    apply filter_id_eq_nil
    intro hmem
    rcases (mem_nodeIds _ _).mp hmem with ⟨n, hn, hneq⟩
    exact hside n (Or.inl hn) hneq
  have hCnil : (((t.Insert hf R1).nodes.drop (hf R2.bidId % t.nodes.length + 1)).flatMap
      Bucket.occupants).filter (fun n => n.bid.bidId == R2.bidId) = [] := by
    apply filter_id_eq_nil
    intro hmem
    rcases (mem_nodeIds _ _).mp hmem with ⟨n, hn, hneq⟩
    exact hside n (Or.inr hn) hneq
  have hmid := filter_map_updateChain R2 (hf R2.bidId % t.nodes.length)
    (((t.Insert hf R1).bucketAt (hf R2.bidId % t.nodes.length)).occupants)
    (hwf1.bucket_nodup _ hidxlt1)
  constructor
  · rw [printAll_eq_occAll hf _ hwf2, hdec2, List.filter_append, List.filter_append,
      hAnil, hCnil, List.map_append, List.map_append, hmid]
    simp
  · rw [printAll_eq_occAll hf _ hwf2, printAll_eq_occAll hf _ hwf1, hdec2, hdec1]
    simp [List.length_append, length_updateChain_of_mem R2 _ _ hmem1]

/-! ### Concrete witnesses -/

theorem reachable_table5 : Reachable hf0 table5 :=
  Reachable.init 5 (by decide)

theorem reachable_tableAF : Reachable hf0 tableAF :=
  Reachable.insert bidF (Reachable.insert bidA reachable_table5)

/-- Witness for claim C1: round-trip at a concrete record and table. -/
theorem insert_search_roundtrip_witness :
    bidA.bidId ≠ "" ∧ (table5.Insert hf0 bidA).Search hf0 bidA.bidId = bidA :=
  ⟨by decide, insert_search_roundtrip hf0 table5 bidA (by decide) (by decide) (by decide)⟩

/-- Witness for claim C2: overwriting insert at a concrete table. -/
theorem insert_update_not_duplicate_witness :
    ((((table5.Insert hf0 bidA).Insert hf0 bidA2).PrintAll.filter
        fun n => n.bid.bidId == bidA2.bidId).map fun n => n.bid) = [bidA2] ∧
    ((table5.Insert hf0 bidA).Insert hf0 bidA2).PrintAll.length =
      (table5.Insert hf0 bidA).PrintAll.length :=
  insert_update_not_duplicate hf0 table5 bidA bidA2 reachable_table5
    (by decide) (by decide) (by decide)

/-- Witness for claim C3: the concrete spec scenario, identifiers A and F
colliding in bucket 0 of a five-bucket table. -/
theorem collision_independence_witness :
    (tableAF.Search hf0 "A").bidId = "A" ∧ (tableAF.Search hf0 "F").bidId = "F" ∧
    (tableAF.Remove hf0 "A").Search hf0 "F" = tableAF.Search hf0 "F" ∧
    (tableAF.Remove hf0 "A").Search hf0 "A" = emptyBid :=
  collision_independence hf0 tableAF "A" "F" reachable_tableAF
    (by decide) (by decide) (by decide)

/-- Witness for claim C4: enumeration of the concrete collision table. -/
theorem printAll_complete_nodup_witness :
    tableAF.PrintAll = tableAF.nodes.flatMap Bucket.occupants ∧
    (tableAF.PrintAll.map fun n => n.bid.bidId).Nodup :=
  printAll_complete_nodup hf0 tableAF reachable_tableAF

/-- Witness for claim C5: the occupied head of bucket 0 of the concrete
collision table stores its own index. -/
theorem occupied_head_key_eq_index_witness :
    (tableAF.bucketAt 0).head.key = 0 :=
  occupied_head_key_eq_index hf0 tableAF reachable_tableAF 0 (by decide) (by decide)

/-- Witness for claim C6: removing A twice from the concrete table equals
removing it once, and removing the absent identifier Z is a no-op. -/
theorem remove_idempotent_witness :
    (tableAF.Remove hf0 "A").Remove hf0 "A" = tableAF.Remove hf0 "A" ∧
    tableAF.Remove hf0 "Z" = tableAF :=
  ⟨(remove_idempotent hf0 tableAF "A" reachable_tableAF).1,
   (remove_idempotent hf0 tableAF "Z" reachable_tableAF).2 (by decide)⟩

/-- Witness for claim C7: searching the absent identifier Z returns the
sentinel record. -/
theorem search_miss_sentinel_witness :
    tableAF.Search hf0 "Z" = emptyBid ∧ emptyBid.bidId = "" :=
  search_miss_sentinel hf0 tableAF "Z" (by decide) (by decide)

/-- Witness for claim C8: removing A touches only bucket 0; bucket 1 is
unchanged. -/
theorem remove_frame_witness :
    (tableAF.Remove hf0 "A").bucketAt 1 = tableAF.bucketAt 1 ∧
    (tableAF.Remove hf0 "A").nodes.length = tableAF.nodes.length :=
  remove_frame hf0 tableAF "A" 1 (by decide)

/-- Witness for claim C9: inserting a record with empty identifier and
searching the empty string returns it. -/
theorem empty_id_insert_search_witness :
    (table5.Insert hf0 bidEmpty).Search hf0 "" = bidEmpty ∧
    bidEmpty.bidId = emptyBid.bidId :=
  empty_id_insert_search hf0 table5 bidEmpty (by decide) (by decide) (by decide)

/-- Witness for claim C10: the unoccupied bucket 1 of the concrete table
has an empty chain. -/
theorem unoccupied_head_empty_chain_witness :
    (tableAF.bucketAt 1).chain = [] :=
  unoccupied_head_empty_chain hf0 tableAF reachable_tableAF 1 (by decide) (by decide)
